import Mathlib

/-!
Verification of the `almost::vector` container
(`src/include/almost/vector.h`, `src/include/almost/buts/vector_impl.h`).

The container is shallowly embedded with value semantics:

* a buffer is a list of slots, each slot either holding a constructed
  element (`some v`) or being allocated-but-uninitialized storage (`none`);
* the logical size is carried separately, as in the C++ `vector_impl`
  (`_data` pointer + `count`, and `_size`);
* `std::move` and `std::move_if_noexcept` transfer the value and leave the
  source slot constructed (value semantics; moved-from values are never
  observed by the verified paths);
* reads through a pointer that is out of bounds, or from a slot that holds
  no constructed element, produce an arbitrary junk value, modelled by
  `default` of an `Inhabited` instance; theorems never depend on which
  value it is;
* construction/destruction order and pairing are modelled by event traces
  replayed against a liveness map;
* C++ exceptions are modelled by an `Outcome` type; a function declared
  `noexcept` in the source converts an escaping exception into program
  termination (`std::terminate`), modelled by `Outcome.terminated`.
-/

namespace Almost

/-- A buffer of `length` allocated slots; `some v` is a slot holding a live
(constructed) element, `none` an allocated-but-uninitialized slot. -/
abbrev Buf (α : Type) := List (Option α)

/-- Read the slot a pointer refers to: pointers are buffer indices (possibly
negative or past the end, as C++ pointer arithmetic allows); any out-of-bounds
read yields `none`, as does a slot with no constructed element. -/
def readSlot (b : Buf α) (i : Int) : Option α :=
  if 0 ≤ i then (b[i.toNat]?).getD none else none

/-- The value obtained by reading through a pointer: a junk value (`default`)
when the slot holds no constructed element. -/
def readVal [Inhabited α] (b : Buf α) (i : Int) : α :=
  (readSlot b i).getD default

/-- The container state: `vector_impl`'s buffer (`_data.ptr` + `_data.count`,
the list and its length) and logical size (`_size`). -/
structure Vec (α : Type) where
  buf : Buf α
  sz : Nat
deriving Repr, DecidableEq

/-- `capacity()`: the allocated slot count `_data.count`. -/
def Vec.cap (v : Vec α) : Nat := v.buf.length

/-- The data-model invariant of §3 of the design: `size ≤ capacity`, every
index in `[0, size)` holds a live element and every index in `[size, capacity)`
holds none. -/
def Wf (v : Vec α) : Prop :=
  v.sz ≤ v.cap ∧
    ((v.buf.take v.sz).all fun o => o.isSome) = true ∧
    ((v.buf.drop v.sz).all fun o => o.isNone) = true

instance (v : Vec α) [DecidableEq α] : Decidable (Wf v) := by
  unfold Wf; infer_instance

/-- The sequence of element values held by the container, in index order. -/
def toList [Inhabited α] (v : Vec α) : List α :=
  (v.buf.take v.sz).map fun o => o.getD default

/-- `allocate_if_needed(count)` (vector_impl.h:59-69): returns the current
buffer when `count ≤ capacity()`, otherwise allocates exactly `count` slots.
The boolean records whether a fresh allocation was made; the `Nat` is the
resulting capacity. -/
def allocate_if_needed (cap count : Nat) : Bool × Nat :=
  if count ≤ cap then (false, cap) else (true, count)

/-- `grow_to(count)` (vector_impl.h:70-80): returns the current buffer when
`count ≤ capacity()`, otherwise allocates `max(count, size() * 2)` slots
through `allocate_if_needed`. -/
def grow_to (sz cap count : Nat) : Bool × Nat :=
  if count ≤ cap then (false, cap) else allocate_if_needed cap (max count (sz * 2))

/-- First loop of `shift_to_end` (vector_impl.h:48-52): for `it` from
`end() - offset` up to `end() - 1`, construct `*(it + offset)` from
`std::move(*it)`.  The iteration index `k` counts loop steps, so `it` is
buffer index `sz - offset + k` (as a pointer: possibly out of bounds) and the
destination is `sz + k`. -/
def shiftCons [Inhabited α] (b : Buf α) (sz offset : Nat) : Buf α :=
  (List.range offset).foldl
    (fun bb k => bb.set (sz + k) (some (readVal bb ((sz : Int) - (offset : Int) + (k : Int))))) b

/-- Second loop of `shift_to_end` (vector_impl.h:53-56): for `it` from
`end() - offset - 1` down to `pos`, assign `*(it + offset) = std::move(*it)`.
The iteration index `j` counts loop steps, so `it` is buffer index
`sz - offset - 1 - j`; the loop runs `sz - offset - pos` times (zero when
the start is already below `pos`). -/
def shiftAsn [Inhabited α] (b : Buf α) (sz pos offset : Nat) : Buf α :=
  (List.range (sz - offset - pos)).foldl
    (fun bb j => bb.set (sz - offset - 1 - j + offset)
      (some (readVal bb ((sz - offset - 1 - j : Nat) : Int)))) b

/-- `shift_to_end(pos, offset)` (vector_impl.h:38-58): if `pos == end()` only
`_size` grows; otherwise the two loops run and then `_size` grows.  `pos` is
the index `pos - begin()`. -/
def shift_to_end [Inhabited α] (b : Buf α) (sz pos offset : Nat) : Buf α × Nat :=
  if pos = sz then (b, sz + offset)
  else (shiftAsn (shiftCons b sz offset) sz pos offset, sz + offset)

/-- A run of writes of consecutive source values starting at index `p`: the
fill loop of the in-place insert path (vector_impl.h:135-142), in which both
the assignment branch and the construct branch store the source value, and the
construction loops of the reallocating paths (vector_impl.h:109-119), which
store each `*it` at `index + distance(first, it)`. -/
def writeVals (b : Buf α) (p : Nat) : List α → Buf α
  | [] => b
  | x :: xs => writeVals (b.set p (some x)) (p + 1) xs

/-- Value effect of `move_to_if_noexcept(dst, src, count)`
(vector_impl.h:14-37) between two distinct buffers: slot `dstOff + i` of the
destination is constructed from the value of slot `srcOff + i` of the source,
for `i` in `[0, count)`.  Source destruction affects only the source buffer,
which every caller discards afterwards. -/
def moveVals [Inhabited α] (dst : Buf α) (src : Buf α) (dstOff srcOff : Nat) : Nat → Buf α
  | 0 => dst
  | n + 1 =>
      moveVals (dst.set dstOff (some (readVal src (srcOff : Int)))) src (dstOff + 1) (srcOff + 1) n

/-- The two construction orders of the templated insert dispatcher
(vector.h:82): `NewFirst` constructs the new elements before relocating the
old ones, `Natural` between the two relocation runs. -/
inductive InsertOrder where
  | NewFirst
  | Natural
deriving Repr, DecidableEq

/-- Reallocating branch of the templated `insert` (vector_impl.h:106-130):
construct the new elements at their final offset into the fresh buffer of
`newCap` slots (before the relocations under `NewFirst`, between them under
`Natural`), relocate the elements before `pos`, relocate the elements from
`pos` on shifted by `count`, release the old buffer and install the new one.
Returns the new state and `new_data.ptr + index`, the index of the first
inserted element. -/
def insertRealloc [Inhabited α] (order : InsertOrder) (v : Vec α) (pos : Nat) (src : List α)
    (newCap : Nat) : Vec α × Nat :=
  let count := src.length
  let nb0 : Buf α := List.replicate newCap none
  let nb1 := match order with
    | .NewFirst => writeVals nb0 pos src
    | .Natural => nb0
  let nb2 := moveVals nb1 v.buf 0 0 pos
  let nb3 := match order with
    | .NewFirst => nb2
    | .Natural => writeVals nb2 pos src
  let nb4 := moveVals nb3 v.buf (pos + count) pos (v.sz - pos)
  ({ buf := nb4, sz := v.sz + count }, pos)

/-- The templated multi-pass `insert(pos, first, last)` (vector_impl.h:98-144)
for a forward source: `count = distance(first, last)`; `grow_to(size + count)`
decides between the reallocating branch and the in-place branch
(`shift_to_end(pos, count)` followed by the fill loop).  `pos` is the index
`pos - begin()`; the source range is the list `src`.  The returned index is
the iterator to the first inserted element. -/
def insertRange [Inhabited α] (order : InsertOrder) (v : Vec α) (pos : Nat) (src : List α) :
    Vec α × Nat :=
  match grow_to v.sz v.cap (v.sz + src.length) with
  | (false, _) =>
      let s := shift_to_end v.buf v.sz pos src.length
      ({ buf := writeVals s.1 pos src, sz := s.2 }, pos)
  | (true, newCap) => insertRealloc order v pos src newCap

/-- `insert(pos, T&& value)` (vector_impl.h:483-489): a one-element span over
the value, inserted through the templated dispatcher with `NewFirst` order.
The moved-from temporary lives outside the buffer, so its reads never alias
container storage. -/
def insertRVal [Inhabited α] (v : Vec α) (pos : Nat) (x : α) : Vec α × Nat :=
  insertRange .NewFirst v pos [x]

/-- The templated insert applied to the one-element view of a *reference into
the container's own buffer* (slot `j`): every read of `*it` is resolved
against the buffer state at the moment the code performs it.  In the in-place
branch the single fill-loop read happens after `shift_to_end`; in the
reallocating branch the `NewFirst` construction reads the old buffer before
any relocation. -/
def insertRangeRef1 [Inhabited α] (v : Vec α) (pos j : Nat) : Vec α × Nat :=
  match grow_to v.sz v.cap (v.sz + 1) with
  | (false, _) =>
      let s := shift_to_end v.buf v.sz pos 1
      ({ buf := s.1.set pos (some (readVal s.1 (j : Int))), sz := s.2 }, pos)
  | (true, newCap) =>
      let nb0 : Buf α := List.replicate newCap none
      let nb1 := nb0.set pos (some (readVal v.buf (j : Int)))
      let nb2 := moveVals nb1 v.buf 0 0 pos
      let nb3 := moveVals nb2 v.buf (pos + 1) pos (v.sz - pos)
      ({ buf := nb3, sz := v.sz + 1 }, pos)

/-- `insert(pos, const T& value)` (vector_impl.h:471-482) where `value` is a
reference to the container's own slot `j`: when there is spare capacity and
`pos != end()`, a private copy is taken first (`auto cpy = value`) and the
rvalue insert runs on the copy; otherwise the one-element view of the
reference itself is handed to the templated dispatcher. -/
def insertCRefAliased [Inhabited α] (v : Vec α) (pos j : Nat) : Vec α × Nat :=
  if 1 ≤ v.cap - v.sz ∧ pos ≠ v.sz then
    insertRVal v pos (readVal v.buf (j : Int))
  else
    insertRangeRef1 v pos j

/-- `emplace(pos, args...)` (vector_impl.h:521-551) with a value argument that
does not alias the container.  Reallocating branch: construct the new element
at its final offset in the fresh buffer, relocate the two runs, install.
In-place branch: at the end, `shift_to_end(pos, 1)` (a size bump) then
construct in place; before the end, materialize `T tmp(args...)`, shift, and
move-assign the temporary into `*pos`. -/
def emplaceVal [Inhabited α] (v : Vec α) (pos : Nat) (x : α) : Vec α × Nat :=
  match grow_to v.sz v.cap (v.sz + 1) with
  | (true, newCap) =>
      let nb0 : Buf α := List.replicate newCap none
      let nb1 := nb0.set pos (some x)
      let nb2 := moveVals nb1 v.buf 0 0 pos
      let nb3 := moveVals nb2 v.buf (pos + 1) pos (v.sz - pos)
      ({ buf := nb3, sz := v.sz + 1 }, pos)
  | (false, _) =>
      if pos = v.sz then
        let s := shift_to_end v.buf v.sz pos 1
        ({ buf := s.1.set pos (some x), sz := s.2 }, pos)
      else
        let tmp := x
        let s := shift_to_end v.buf v.sz pos 1
        ({ buf := s.1.set pos (some tmp), sz := s.2 }, pos)

/-- `emplace(pos, args...)` where the argument is a reference to the
container's own slot `j`; each read of the argument is resolved against the
buffer at the moment the code constructs from it.  Reallocating branch: the
construction into the fresh buffer reads the still-intact old buffer.
In-place at the end: the construction happens after the pure size bump.
In-place before the end: `T tmp(args...)` snapshots the value *before*
`shift_to_end` runs. -/
def emplaceRefAliased [Inhabited α] (v : Vec α) (pos j : Nat) : Vec α × Nat :=
  match grow_to v.sz v.cap (v.sz + 1) with
  | (true, newCap) =>
      let nb0 : Buf α := List.replicate newCap none
      let nb1 := nb0.set pos (some (readVal v.buf (j : Int)))
      let nb2 := moveVals nb1 v.buf 0 0 pos
      let nb3 := moveVals nb2 v.buf (pos + 1) pos (v.sz - pos)
      ({ buf := nb3, sz := v.sz + 1 }, pos)
  | (false, _) =>
      if pos = v.sz then
        let s := shift_to_end v.buf v.sz pos 1
        ({ buf := s.1.set pos (some (readVal s.1 (j : Int))), sz := s.2 }, pos)
      else
        let tmp := readVal v.buf (j : Int)
        let s := shift_to_end v.buf v.sz pos 1
        ({ buf := s.1.set pos (some tmp), sz := s.2 }, pos)

/-- `push_back(value)` (vector_impl.h:571-578): `insert(end(), value)`; with
`pos == end()` the const-reference overload falls through to the templated
dispatcher on a one-element view with `NewFirst` order. -/
def push_back [Inhabited α] (v : Vec α) (x : α) : Vec α :=
  (insertRange .NewFirst v v.sz [x]).1

/-- Successful-path `reserve(new_cap)` (vector_impl.h:437-447) without the
length check: if the buffer already suffices, return; otherwise relocate every
live element into a fresh buffer of exactly `new_cap` slots and install it. -/
def reserveVal [Inhabited α] (v : Vec α) (n : Nat) : Vec α :=
  match allocate_if_needed v.cap n with
  | (false, _) => v
  | (true, newCap) =>
      { buf := moveVals (List.replicate newCap none) v.buf 0 0 v.sz, sz := v.sz }

/-- Destroy `n` consecutive slots starting at `start`: the destruction loop of
`resize` (vector_impl.h:595-599). -/
def killRange (b : Buf α) (start : Nat) : Nat → Buf α
  | 0 => b
  | n + 1 => killRange (b.set start none) (start + 1) n

/-- `resize(count)` (vector_impl.h:593-613).  Besides the new state it
returns the allocation request made (`some slots` when `allocate_if_needed`
had to allocate) and the list of indices whose elements were destroyed by the
shrinking loop, in destruction order. -/
def resize [Inhabited α] (v : Vec α) (count : Nat) : Vec α × Option Nat × List Nat :=
  if count < v.sz then
    ({ buf := killRange v.buf count (v.sz - count), sz := count },
      none, List.range' count (v.sz - count))
  else if v.sz < count then
    match allocate_if_needed v.cap count with
    | (false, _) =>
        ({ buf := writeVals v.buf v.sz (List.replicate (count - v.sz) default), sz := count },
          none, [])
    | (true, newCap) =>
        let nb0 : Buf α := List.replicate newCap none
        let nb1 := writeVals nb0 v.sz (List.replicate (count - v.sz) default)
        let nb2 := moveVals nb1 v.buf 0 0 v.sz
        ({ buf := nb2, sz := count }, some count, [])
  else (v, none, [])

/-- The modulus of `size_type` (`std::size_t`, 64 bits on the tested
platform): unsigned arithmetic wraps modulo this value. -/
def W64 : Nat := 2 ^ 64

/-- `pop_back()` (vector_impl.h:588-592): `resize(size() - 1)`, where the
subtraction is unsigned `size_type` arithmetic and therefore wraps modulo
`2 ^ 64` when `size() == 0`. -/
def pop_back [Inhabited α] (v : Vec α) : Vec α × Option Nat × List Nat :=
  resize v ((v.sz + (W64 - 1)) % W64)

/-- The out-of-range error thrown by `at` carries the GCC-style message
built at vector_impl.h:297-301. -/
structure OutOfRange where
  msg : String
deriving Repr, DecidableEq

/-- The exact message text `at` builds: it cites the requested index and the
current size. -/
def rangeCheckMsg (pos sz : Nat) : String :=
  "vector::_M_range_check: __n (which is " ++ toString pos ++
    ") >= this->size() (which is " ++ toString sz ++ ")"

/-- `at(pos)` (vector_impl.h:294-303): throws `std::out_of_range` when
`pos >= size()`, otherwise returns `(*this)[pos]`, the element read through
`data()[pos]`.  `at` performs no mutation: the container state is whatever it
was before the call. -/
def at' [Inhabited α] (v : Vec α) (pos : Nat) : Except OutOfRange α :=
  if v.sz ≤ pos then .error ⟨rangeCheckMsg pos v.sz⟩
  else .ok (readVal v.buf (pos : Int))

/-- `data()` (vector_impl.h:351-354): `empty() ? nullptr : addressof(front())`.
Addresses are modelled as `base + index` with `base` the buffer's base
address; `none` is the null pointer. -/
def dataPtr (v : Vec α) (base : Nat) : Option Nat :=
  if v.sz = 0 then none else some base

/-- The address of the element at index `i` in a buffer based at `base`
(contiguous storage). -/
def addrOfElem (base i : Nat) : Nat := base + i

/-- Result of running an operation under C++ exception semantics: normal
return, an exception propagated to the caller (with the container state at the
throw point), or `std::terminate` — which is what happens when an exception
escapes a function declared `noexcept`. -/
inductive Outcome (σ : Type) where
  | ok (s : σ)
  | raised (what : String) (s : σ)
  | terminated
deriving Repr, DecidableEq

/-- `reserve(new_cap)` (vector_impl.h:437-447) under exception semantics.
`maxSz` is `max_size()`; `allocOk` tells whether the allocator can satisfy the
request.  The length check throws `std::length_error("vector::reserve")`
before any mutation.  The allocation itself happens inside
`allocate_if_needed`, which the source declares `noexcept`
(vector_impl.h:62): an allocator failure there escapes a noexcept function,
so the program terminates instead of the error reaching the caller. -/
def reserveE [Inhabited α] (v : Vec α) (n maxSz : Nat) (allocOk : Bool) : Outcome (Vec α) :=
  if maxSz < n then .raised "vector::reserve" v
  else if n ≤ v.cap then .ok v
  else if allocOk then
    .ok { buf := moveVals (List.replicate n none) v.buf 0 0 v.sz, sz := v.sz }
  else .terminated

/-- Relocation events of `move_to_if_noexcept`: construction of destination
slot `i` and destruction of source slot `i`, `i` relative to the run. -/
inductive REv where
  | cons (i : Nat)
  | des (i : Nat)
deriving Repr, DecidableEq

/-- Event trace of `move_to_if_noexcept<destroy>(dst, src, count)`
(vector_impl.h:14-37): the main loop constructs slot `i` and, when
destruction is requested and the element type is nothrow-move-constructible,
destroys source `i` in the same iteration; when destruction is requested but
the move may fail, a second loop destroys every source after the main loop
has finished. -/
def move_to_if_noexcept (nothrowMove doDestroy : Bool) (count : Nat) : List REv :=
  ((List.range count).flatMap fun i =>
    .cons i :: (if doDestroy ∧ nothrowMove then [.des i] else [])) ++
  (if doDestroy ∧ ¬nothrowMove then (List.range count).map .des else [])

/-- Events of `shift_to_end`, with their operand slots: `scons dst src` is a
transfer-construction of slot `dst` from the slot the pointer `src` refers to
(possibly out of bounds, hence `Int`); `sasn dst src` is a transfer-assignment
into the live slot `dst` from slot `src`. -/
inductive SEv where
  | scons (dst : Nat) (src : Int)
  | sasn (dst : Nat) (src : Nat)
deriving Repr, DecidableEq

/-- Event trace of `shift_to_end(pos, offset)` (vector_impl.h:38-58),
mirroring the loops of `shiftCons` and `shiftAsn`: nothing when
`pos == end()`; otherwise the construction loop in increasing `it` order
followed by the assignment loop in decreasing `it` order. -/
def shiftTrace (sz pos offset : Nat) : List SEv :=
  if pos = sz then []
  else
    ((List.range offset).map fun k => .scons (sz + k) ((sz : Int) - (offset : Int) + (k : Int))) ++
    ((List.range (sz - offset - pos)).map fun j =>
      .sasn (sz - offset - 1 - j + offset) (sz - offset - 1 - j))

/-- The destination slot of a shift event. -/
def SEv.dst : SEv → Nat
  | .scons d _ => d
  | .sasn d _ => d

/-- Whether a shift event is a construction. -/
def SEv.isCons : SEv → Bool
  | .scons _ _ => true
  | .sasn _ _ => false

/-- Whether a shift event reads the (live) source slot `s`. -/
def SEv.readsFrom (s : Nat) : SEv → Bool
  | .scons _ src => src = (s : Int)
  | .sasn _ src => src = s

/-- Lifetime events: construction, assignment and destruction of a buffer
slot, abstracted from their operand values. -/
inductive LEv where
  | consL (i : Nat)
  | asnL (i : Nat)
  | desL (i : Nat)
deriving Repr, DecidableEq

/-- The lifetime events of a shift trace. -/
def shiftTraceL (sz pos offset : Nat) : List LEv :=
  (shiftTrace sz pos offset).map fun e =>
    match e with
    | .scons d _ => .consL d
    | .sasn d _ => .asnL d

/-- Lifetime events of the fill loop of the in-place insert branch
(vector_impl.h:135-142): slot `pos + i` is assigned when it lies below the
pre-shift end `prvEnd`, and constructed otherwise. -/
def fillTraceL (pos prvEnd count : Nat) : List LEv :=
  (List.range count).map fun i =>
    if pos + i < prvEnd then .asnL (pos + i) else .consL (pos + i)

/-- Lifetime events of the whole in-place insert branch (vector_impl.h:
131-144): `shift_to_end(pos, count)` followed by the fill loop with
`prv_end` captured before the shift. -/
def insertInPlaceTraceL (sz pos count : Nat) : List LEv :=
  shiftTraceL sz pos count ++ fillTraceL pos sz count

/-- Replay lifetime events over a slot-liveness map.  Returns the final map
and whether some construction targeted a slot that was already live — a
double construction with no intervening destruction. -/
def replay : List Bool → List LEv → List Bool × Bool
  | live, [] => (live, false)
  | live, .consL i :: rest =>
      let bad := live.getD i false
      let r := replay (live.set i true) rest
      (r.1, bad || r.2)
  | live, .asnL _ :: rest => replay live rest
  | live, .desL i :: rest => replay (live.set i false) rest

/-- One `push_back` on the `(size, capacity, reallocation count)` abstraction:
the templated insert calls `grow_to(size + 1)`, which reallocates exactly when
`size + 1 > capacity`, to `max(size + 1, size * 2)` slots. -/
def pushStep : Nat × Nat × Nat → Nat × Nat × Nat
  | (sz, cap, r) =>
      if sz + 1 ≤ cap then (sz + 1, cap, r) else (sz + 1, max (sz + 1) (sz * 2), r + 1)

/-- `(size, capacity, reallocation count)` after `n` `push_back` calls
starting from an empty container. -/
def pushSim : Nat → Nat × Nat × Nat
  | 0 => (0, 0, 0)
  | n + 1 => pushStep (pushSim n)

/-! ### Basic lemmas about the buffer primitives -/

theorem readSlot_congr {b b' : Buf α} (i : Int) (h : b'[i.toNat]? = b[i.toNat]?) :
    readSlot b' i = readSlot b i := by
  unfold readSlot; rw [h]

theorem readVal_congr [Inhabited α] {b b' : Buf α} (i : Int) (h : b'[i.toNat]? = b[i.toNat]?) :
    readVal b' i = readVal b i := by
  unfold readVal; rw [readSlot_congr i h]

theorem readSlot_neg {b : Buf α} {i : Int} (h : i < 0) : readSlot b i = none := by
  unfold readSlot
  rw [if_neg (by omega)]

theorem length_foldl_set {β : Type} (L : List β) (f : Buf α → β → Nat) (g : Buf α → β → Option α)
    (b : Buf α) : (L.foldl (fun bb k => bb.set (f bb k) (g bb k)) b).length = b.length := by
  induction L generalizing b with
  | nil => rfl
  | cons x xs ih => simp only [List.foldl_cons]; rw [ih]; simp

theorem shiftCons_length [Inhabited α] (b : Buf α) (sz off : Nat) :
    (shiftCons b sz off).length = b.length :=
  length_foldl_set (List.range off) (fun _ k => sz + k)
    (fun bb k => some (readVal bb ((sz : Int) - (off : Int) + (k : Int)))) b

theorem shiftAsn_length [Inhabited α] (b : Buf α) (sz pos off : Nat) :
    (shiftAsn b sz pos off).length = b.length :=
  length_foldl_set (List.range (sz - off - pos)) (fun _ j => sz - off - 1 - j + off)
    (fun bb j => some (readVal bb ((sz - off - 1 - j : Nat) : Int))) b

theorem writeVals_length (b : Buf α) (p : Nat) (src : List α) :
    (writeVals b p src).length = b.length := by
  induction src generalizing b p with
  | nil => rfl
  | cons x xs ih => simp only [writeVals]; rw [ih]; simp

theorem moveVals_length [Inhabited α] (dst src : Buf α) (dOff sOff n : Nat) :
    (moveVals dst src dOff sOff n).length = dst.length := by
  induction n generalizing dst dOff sOff with
  | zero => rfl
  | succ n ih => simp only [moveVals]; rw [ih]; simp

theorem killRange_length (b : Buf α) (start n : Nat) :
    (killRange b start n).length = b.length := by
  induction n generalizing b start with
  | zero => rfl
  | succ n ih => simp only [killRange]; rw [ih]; simp

/-! ### Pointwise characterization of the write loops -/

theorem shiftConsAux [Inhabited α] (b : Buf α) (sz off : Nat) (hlen : sz + off ≤ b.length) :
    ∀ m, m ≤ off → ∀ i : Nat,
      ((List.range m).foldl
        (fun bb k => bb.set (sz + k)
          (some (readVal bb ((sz : Int) - (off : Int) + (k : Int))))) b)[i]? =
      if sz ≤ i ∧ i < sz + m then some (some (readVal b ((i : Int) - (off : Int)))) else b[i]? := by
  intro m
  induction m with
  | zero =>
      intro _ i
      simp only [List.range_zero, List.foldl_nil]
      rw [if_neg (by omega)]
  | succ m ih =>
      intro hm i
      rw [List.range_succ, List.foldl_append, List.foldl_cons, List.foldl_nil]
      have hFlen : ((List.range m).foldl
          (fun bb k => bb.set (sz + k)
            (some (readVal bb ((sz : Int) - (off : Int) + (k : Int))))) b).length = b.length :=
        length_foldl_set _ _ _ _
      have hread : readVal ((List.range m).foldl
            (fun bb k => bb.set (sz + k)
              (some (readVal bb ((sz : Int) - (off : Int) + (k : Int))))) b)
            ((sz : Int) - (off : Int) + (m : Int)) =
          readVal b ((sz : Int) - (off : Int) + (m : Int)) := by
        rcases lt_or_ge ((sz : Int) - (off : Int) + (m : Int)) 0 with hneg | hpos
        · unfold readVal
          rw [readSlot_neg hneg, readSlot_neg hneg]
        · apply readVal_congr
          rw [ih (by omega)]
          rw [if_neg]
          intro ⟨h1, _⟩
          have : ((sz : Int) - (off : Int) + (m : Int)).toNat < sz := by omega
          omega
      rw [hread]
      rcases eq_or_ne i (sz + m) with rfl | hne
      · rw [List.getElem?_set_self (by rw [hFlen]; omega)]
        rw [if_pos ⟨by omega, by omega⟩]
        have harg : (sz : Int) - (off : Int) + (m : Int) =
            ((sz + m : Nat) : Int) - (off : Int) := by push_cast; ring
        rw [harg]
      · rw [List.getElem?_set_ne (by omega)]
        rw [ih (by omega)]
        by_cases hin : sz ≤ i ∧ i < sz + m
        · rw [if_pos hin, if_pos ⟨hin.1, by omega⟩]
        · rw [if_neg hin, if_neg (by omega)]

theorem shiftCons_getElem? [Inhabited α] (b : Buf α) (sz off : Nat) (hlen : sz + off ≤ b.length)
    (i : Nat) :
    (shiftCons b sz off)[i]? =
      if sz ≤ i ∧ i < sz + off then some (some (readVal b ((i : Int) - (off : Int)))) else b[i]? :=
  shiftConsAux b sz off hlen off le_rfl i

theorem shiftAsnAux [Inhabited α] (b : Buf α) (sz pos off : Nat) (hlen : sz ≤ b.length) :
    ∀ m, m ≤ sz - off - pos → ∀ i : Nat,
      ((List.range m).foldl
        (fun bb j => bb.set (sz - off - 1 - j + off)
          (some (readVal bb ((sz - off - 1 - j : Nat) : Int)))) b)[i]? =
      if sz - m ≤ i ∧ i < sz then some (some (readVal b ((i : Int) - (off : Int)))) else b[i]? := by
  intro m
  induction m with
  | zero =>
      intro _ i
      simp only [List.range_zero, List.foldl_nil]
      rw [if_neg (by omega)]
  | succ m ih =>
      intro hm i
      rw [List.range_succ, List.foldl_append, List.foldl_cons, List.foldl_nil]
      have hb : off + pos + m + 1 ≤ sz := by omega
      have hFlen : ((List.range m).foldl
          (fun bb j => bb.set (sz - off - 1 - j + off)
            (some (readVal bb ((sz - off - 1 - j : Nat) : Int)))) b).length = b.length :=
        length_foldl_set _ _ _ _
      have hdst : sz - off - 1 - m + off = sz - 1 - m := by omega
      have hread : readVal ((List.range m).foldl
            (fun bb j => bb.set (sz - off - 1 - j + off)
              (some (readVal bb ((sz - off - 1 - j : Nat) : Int)))) b)
            ((sz - off - 1 - m : Nat) : Int) =
          readVal b ((sz - off - 1 - m : Nat) : Int) := by
        apply readVal_congr
        rw [ih (by omega)]
        rw [if_neg]
        intro ⟨h1, _⟩
        have : ((sz - off - 1 - m : Nat) : Int).toNat = sz - off - 1 - m := by omega
        omega
      rw [hread, hdst]
      have harg : ((sz - off - 1 - m : Nat) : Int) = ((sz - 1 - m : Nat) : Int) - (off : Int) := by
        omega
      rw [harg]
      rcases eq_or_ne i (sz - 1 - m) with rfl | hne
      · rw [List.getElem?_set_self (by omega)]
        rw [if_pos ⟨by omega, by omega⟩]
      · rw [List.getElem?_set_ne (by omega)]
        rw [ih (by omega)]
        by_cases hin : sz - m ≤ i ∧ i < sz
        · rw [if_pos hin, if_pos ⟨by omega, hin.2⟩]
        · rw [if_neg hin, if_neg (by omega)]

theorem shiftAsn_getElem? [Inhabited α] (b : Buf α) (sz pos off : Nat) (hlen : sz ≤ b.length)
    (i : Nat) :
    (shiftAsn b sz pos off)[i]? =
      if pos + off ≤ i ∧ i < sz ∧ off + pos ≤ sz
      then some (some (readVal b ((i : Int) - (off : Int)))) else b[i]? := by
  have h := shiftAsnAux b sz pos off hlen (sz - off - pos) le_rfl i
  unfold shiftAsn
  rw [h]
  by_cases hcase : off + pos ≤ sz
  · by_cases hin : sz - (sz - off - pos) ≤ i ∧ i < sz
    · rw [if_pos hin, if_pos ⟨by omega, hin.2, hcase⟩]
    · rw [if_neg hin, if_neg (by omega)]
  · rw [if_neg (by omega), if_neg (by omega)]


theorem writeVals_getElem? (b : Buf α) (p : Nat) (src : List α)
    (hlen : p + src.length ≤ b.length) (i : Nat) :
    (writeVals b p src)[i]? =
      if p ≤ i ∧ i < p + src.length then (src[i - p]?).map some else b[i]? := by
  induction src generalizing b p with
  | nil =>
      simp only [writeVals, List.length_nil]
      rw [if_neg (by omega)]
  | cons x xs ih =>
      simp only [writeVals]
      simp only [List.length_cons] at hlen
      rw [ih _ _ (by simp; omega)]
      rcases eq_or_ne i p with rfl | hne
      · rw [if_neg (by omega), if_pos ⟨le_rfl, by simp⟩]
        simp only [Nat.sub_self, List.getElem?_cons_zero, Option.map_some]
        rw [List.getElem?_set_self (by omega)]
        rfl
      · by_cases hin : p + 1 ≤ i ∧ i < p + 1 + xs.length
        · rw [if_pos hin, if_pos ⟨by omega, by simp; omega⟩]
          have : i - p = (i - (p + 1)) + 1 := by omega
          rw [this, List.getElem?_cons_succ]
        · rw [if_neg hin, List.getElem?_set_ne (by omega),
            if_neg (by simp; omega)]

theorem moveVals_getElem? [Inhabited α] (dst src : Buf α) (dOff sOff n : Nat)
    (hlen : dOff + n ≤ dst.length) (i : Nat) :
    (moveVals dst src dOff sOff n)[i]? =
      if dOff ≤ i ∧ i < dOff + n
      then some (some (readVal src ((sOff + (i - dOff) : Nat) : Int))) else dst[i]? := by
  induction n generalizing dst dOff sOff with
  | zero =>
      simp only [moveVals]
      rw [if_neg (by omega)]
  | succ n ih =>
      simp only [moveVals]
      rw [ih _ _ _ (by simp; omega)]
      rcases eq_or_ne i dOff with rfl | hne
      · rw [if_neg (by omega), if_pos ⟨le_rfl, by omega⟩, List.getElem?_set_self (by omega)]
        have : (sOff + (i - i) : Nat) = sOff := by omega
        rw [this]
      · by_cases hin : dOff + 1 ≤ i ∧ i < dOff + 1 + n
        · rw [if_pos hin, if_pos ⟨by omega, by omega⟩]
          have : (sOff + 1 + (i - (dOff + 1)) : Nat) = (sOff + (i - dOff) : Nat) := by omega
          rw [this]
        · rw [if_neg hin, List.getElem?_set_ne (by omega), if_neg (by omega)]

/-! ### Well-formedness and `toList` lemmas -/

theorem Wf.size_le {v : Vec α} (h : Wf v) : v.sz ≤ v.buf.length := h.1

theorem Wf.live [Inhabited α] {v : Vec α} (h : Wf v) {i : Nat} (hi : i < v.sz) :
    v.buf[i]? = some (some (readVal v.buf (i : Int))) := by
  have hlen : i < v.buf.length := lt_of_lt_of_le hi h.size_le
  have ho : v.buf[i]? = some (v.buf.get ⟨i, hlen⟩) := List.getElem?_eq_getElem hlen
  have homem : v.buf.get ⟨i, hlen⟩ ∈ v.buf.take v.sz :=
    List.getElem?_mem (by rw [List.getElem?_take_of_lt hi]; exact ho)
  have hsome : (v.buf.get ⟨i, hlen⟩).isSome := List.all_eq_true.mp h.2.1 _ homem
  unfold readVal readSlot
  rw [if_pos (by omega)]
  simp only [Int.toNat_natCast]
  rw [ho]
  obtain ⟨a, ha⟩ := Option.isSome_iff_exists.mp hsome
  rw [ha]
  rfl

theorem Wf.dead {v : Vec α} (h : Wf v) {i : Nat} (hi : v.sz ≤ i) (hlen : i < v.buf.length) :
    v.buf[i]? = some none := by
  have ho : v.buf[i]? = some (v.buf.get ⟨i, hlen⟩) := List.getElem?_eq_getElem hlen
  have homem : v.buf.get ⟨i, hlen⟩ ∈ v.buf.drop v.sz := by
    apply List.getElem?_mem (n := i - v.sz)
    rw [List.getElem?_drop]
    have hadd : v.sz + (i - v.sz) = i := by omega
    rw [hadd]
    exact ho
  have hnone := List.all_eq_true.mp h.2.2 _ homem
  rw [ho, Option.isNone_iff_eq_none.mp hnone]

theorem toList_getElem? [Inhabited α] (v : Vec α) (i : Nat) :
    (toList v)[i]? = if i < v.sz then (v.buf[i]?).map (fun o => o.getD default) else none := by
  unfold toList
  rw [List.getElem?_map, List.getElem?_take]
  by_cases hi : i < v.sz
  · rw [if_pos hi, if_pos hi]
  · rw [if_neg hi, if_neg hi]
    rfl

theorem toList_getElem?_live [Inhabited α] {v : Vec α} (h : Wf v) {i : Nat} (hi : i < v.sz) :
    (toList v)[i]? = some (readVal v.buf (i : Int)) := by
  rw [toList_getElem? v i, if_pos hi, h.live hi]
  rfl

theorem toList_length [Inhabited α] {v : Vec α} (h : v.sz ≤ v.buf.length) :
    (toList v).length = v.sz := by
  unfold toList
  rw [List.length_map, List.length_take]
  omega

/-! ### Characterization of the insert paths -/

theorem shift_to_end_snd [Inhabited α] (b : Buf α) (sz pos off : Nat) :
    (shift_to_end b sz pos off).2 = sz + off := by
  unfold shift_to_end
  split <;> rfl

theorem shift_to_end_fst_length [Inhabited α] (b : Buf α) (sz pos off : Nat) :
    (shift_to_end b sz pos off).1.length = b.length := by
  unfold shift_to_end
  split
  · rfl
  · simp only
    rw [shiftAsn_length, shiftCons_length]

theorem shift_to_end_fst_of_eq [Inhabited α] (b : Buf α) (sz pos off : Nat) (h : pos = sz) :
    (shift_to_end b sz pos off).1 = b := by
  unfold shift_to_end
  rw [if_pos h]

theorem shift_to_end_fst_of_ne [Inhabited α] (b : Buf α) (sz pos off : Nat) (h : pos ≠ sz) :
    (shift_to_end b sz pos off).1 = shiftAsn (shiftCons b sz off) sz pos off := by
  unfold shift_to_end
  rw [if_neg h]

theorem insertInPlace_getElem? [Inhabited α] (b : Buf α) (sz pos : Nat) (src : List α)
    (hlen : sz + src.length ≤ b.length) (hpos : pos ≤ sz) (i : Nat) :
    (writeVals (shift_to_end b sz pos src.length).1 pos src)[i]? =
      if pos ≤ i ∧ i < pos + src.length then (src[i - pos]?).map some
      else if pos + src.length ≤ i ∧ i < sz + src.length
      then some (some (readVal b ((i : Int) - (src.length : Int))))
      else b[i]? := by
  by_cases hps : pos = sz
  · rw [shift_to_end_fst_of_eq b sz pos src.length hps]
    rw [writeVals_getElem? _ _ _ (by omega) i]
    by_cases h1 : pos ≤ i ∧ i < pos + src.length
    · rw [if_pos h1, if_pos h1]
    · rw [if_neg h1, if_neg h1, if_neg (by omega)]
  · rw [shift_to_end_fst_of_ne b sz pos src.length hps]
    have hlen1 : (shiftCons b sz src.length).length = b.length := shiftCons_length b sz src.length
    rw [writeVals_getElem? _ _ _ (by rw [shiftAsn_length, hlen1]; omega) i]
    by_cases h1 : pos ≤ i ∧ i < pos + src.length
    · rw [if_pos h1, if_pos h1]
    · rw [if_neg h1, if_neg h1]
      rw [shiftAsn_getElem? _ _ _ _ (by omega) i]
      by_cases h2 : pos + src.length ≤ i ∧ i < sz ∧ src.length + pos ≤ sz
      · rw [if_pos h2, if_pos (by omega)]
        have hagree : (shiftCons b sz src.length)[((i : Int) - (src.length : Int)).toNat]? =
            b[((i : Int) - (src.length : Int)).toNat]? := by
          rw [shiftCons_getElem? b sz src.length (by omega)]
          rw [if_neg (by omega)]
        rw [readVal_congr _ hagree]
      · rw [if_neg h2]
        rw [shiftCons_getElem? b sz src.length (by omega) i]
        by_cases h3 : sz ≤ i ∧ i < sz + src.length
        · rw [if_pos h3, if_pos (by omega)]
        · rw [if_neg h3, if_neg (by omega)]

theorem insertRealloc_getElem? [Inhabited α] (order : InsertOrder) (v : Vec α) (pos : Nat)
    (src : List α) (newCap : Nat) (hpos : pos ≤ v.sz) (hcap : v.sz + src.length ≤ newCap)
    (i : Nat) :
    (insertRealloc order v pos src newCap).1.buf[i]? =
      if i < pos then some (some (readVal v.buf (i : Int)))
      else if i < pos + src.length then (src[i - pos]?).map some
      else if i < v.sz + src.length then some (some (readVal v.buf ((i - src.length : Nat) : Int)))
      else if i < newCap then some none
      else none := by
  have hrep : (List.replicate newCap (none : Option α))[i]? =
      if i < newCap then some none else none := List.getElem?_replicate
  cases order with
  | NewFirst =>
      show (moveVals (moveVals (writeVals (List.replicate newCap none) pos src)
          v.buf 0 0 pos) v.buf (pos + src.length) pos (v.sz - pos))[i]? = _
      rw [moveVals_getElem? _ _ _ _ _ (by
          rw [moveVals_length, writeVals_length, List.length_replicate]; omega) i,
        moveVals_getElem? _ _ _ _ _ (by
          rw [writeVals_length, List.length_replicate]; omega) i,
        writeVals_getElem? _ _ _ (by rw [List.length_replicate]; omega) i, hrep]
      split_ifs <;> try rfl
      all_goals try (exfalso; omega)
      all_goals congr 3
      all_goals omega
  | Natural =>
      show (moveVals (writeVals (moveVals (List.replicate newCap none)
          v.buf 0 0 pos) pos src) v.buf (pos + src.length) pos (v.sz - pos))[i]? = _
      rw [moveVals_getElem? _ _ _ _ _ (by
          rw [writeVals_length, moveVals_length, List.length_replicate]; omega) i,
        writeVals_getElem? _ _ _ (by
          rw [moveVals_length, List.length_replicate]; omega) i,
        moveVals_getElem? _ _ _ _ _ (by rw [List.length_replicate]; omega) i, hrep]
      split_ifs <;> try rfl
      all_goals try (exfalso; omega)
      all_goals congr 3
      all_goals omega

theorem insTarget_getElem? [Inhabited α] (v : Vec α) (h : Wf v) (pos : Nat) (hpos : pos ≤ v.sz)
    (src : List α) (i : Nat) :
    ((toList v).take pos ++ src ++ (toList v).drop pos)[i]? =
      if i < pos then some (readVal v.buf (i : Int))
      else if i < pos + src.length then src[i - pos]?
      else if i < v.sz + src.length then some (readVal v.buf ((i - src.length : Nat) : Int))
      else none := by
  have hTL : (toList v).length = v.sz := toList_length h.size_le
  have hA : ((toList v).take pos).length = pos := by
    rw [List.length_take, hTL]; omega
  rw [List.append_assoc, List.getElem?_append]
  rw [hA]
  by_cases h1 : i < pos
  · rw [if_pos h1, if_pos h1, List.getElem?_take_of_lt h1, toList_getElem?_live h (by omega)]
  · rw [if_neg h1, if_neg h1, List.getElem?_append]
    by_cases h2 : i - pos < src.length
    · rw [if_pos h2, if_pos (by omega)]
    · rw [if_neg h2, if_neg (by omega), List.getElem?_drop]
      by_cases h3 : i < v.sz + src.length
      · rw [if_pos h3]
        have harg : pos + (i - pos - src.length) = i - src.length := by omega
        rw [harg, toList_getElem?_live h (by omega)]
      · rw [if_neg h3]
        rw [toList_getElem?, if_neg (by omega)]

theorem insertRange_of_fit [Inhabited α] (order : InsertOrder) (v : Vec α) (pos : Nat)
    (src : List α) (hfit : v.sz + src.length ≤ v.cap) :
    insertRange order v pos src =
      ({ buf := writeVals (shift_to_end v.buf v.sz pos src.length).1 pos src,
         sz := (shift_to_end v.buf v.sz pos src.length).2 }, pos) := by
  unfold insertRange
  have hg : grow_to v.sz v.cap (v.sz + src.length) = (false, v.cap) := by
    unfold grow_to; rw [if_pos hfit]
  rw [hg]

theorem insertRange_of_grow [Inhabited α] (order : InsertOrder) (v : Vec α) (pos : Nat)
    (src : List α) (hfit : ¬ v.sz + src.length ≤ v.cap) :
    insertRange order v pos src =
      insertRealloc order v pos src (max (v.sz + src.length) (v.sz * 2)) := by
  unfold insertRange
  have hg : grow_to v.sz v.cap (v.sz + src.length) =
      (true, max (v.sz + src.length) (v.sz * 2)) := by
    unfold grow_to allocate_if_needed
    rw [if_neg hfit, if_neg (by omega)]
  rw [hg]

theorem insertRange_correct [Inhabited α] (order : InsertOrder) (v : Vec α) (pos : Nat)
    (src : List α) (h : Wf v) (hpos : pos ≤ v.sz) :
    toList (insertRange order v pos src).1 =
        (toList v).take pos ++ src ++ (toList v).drop pos ∧
      (insertRange order v pos src).1.sz = v.sz + src.length ∧
      (insertRange order v pos src).2 = pos ∧
      (v.sz + src.length ≤ v.cap → (insertRange order v pos src).1.cap = v.cap) := by
  have hbuflen : v.buf.length = v.cap := rfl
  by_cases hfit : v.sz + src.length ≤ v.cap
  · rw [insertRange_of_fit order v pos src hfit]
    refine ⟨?_, ?_, rfl, ?_⟩
    · apply List.ext_getElem?
      intro i
      rw [insTarget_getElem? v h pos hpos src i]
      rw [toList_getElem?]
      simp only [shift_to_end_snd]
      by_cases hsz : i < v.sz + src.length
      · rw [if_pos hsz]
        rw [insertInPlace_getElem? v.buf v.sz pos src (by omega) hpos i]
        by_cases h1 : pos ≤ i ∧ i < pos + src.length
        · rw [if_pos h1, if_neg (by omega), if_pos (by omega)]
          have hsrc : i - pos < src.length := by omega
          rw [List.getElem?_eq_getElem hsrc]
          rfl
        · rw [if_neg h1]
          by_cases h2 : pos + src.length ≤ i ∧ i < v.sz + src.length
          · rw [if_pos h2, if_neg (by omega), if_neg (by omega), if_pos hsz]
            have harg : (i : Int) - (src.length : Int) = ((i - src.length : Nat) : Int) := by
              omega
            rw [harg]
            rfl
          · rw [if_neg h2, h.live (by omega), if_pos (by omega)]
            rfl
      · rw [if_neg hsz, if_neg (by omega), if_neg (by omega), if_neg (by omega)]
    · simp only [shift_to_end_snd]
    · intro _
      simp only [Vec.cap]
      rw [writeVals_length, shift_to_end_fst_length]
  · rw [insertRange_of_grow order v pos src hfit]
    have hcapN : v.sz + src.length ≤ max (v.sz + src.length) (v.sz * 2) := le_max_left _ _
    refine ⟨?_, rfl, rfl, fun hc => absurd hc hfit⟩
    apply List.ext_getElem?
    intro i
    rw [insTarget_getElem? v h pos hpos src i]
    rw [toList_getElem?]
    by_cases hsz : i < v.sz + src.length
    · have hszgoal :
          i < (insertRealloc order v pos src (max (v.sz + src.length) (v.sz * 2))).1.sz := by
        show i < v.sz + src.length
        exact hsz
      rw [if_pos hszgoal]
      rw [insertRealloc_getElem? order v pos src _ hpos hcapN i]
      by_cases h1 : i < pos
      · rw [if_pos h1, if_pos h1]
        rfl
      · rw [if_neg h1, if_neg h1]
        by_cases h2 : i < pos + src.length
        · rw [if_pos h2, if_pos h2]
          have hsrc : i - pos < src.length := by omega
          rw [List.getElem?_eq_getElem hsrc]
          rfl
        · rw [if_neg h2, if_neg h2, if_pos hsz, if_pos hsz]
          rfl
    · have hszgoal :
          ¬ i < (insertRealloc order v pos src (max (v.sz + src.length) (v.sz * 2))).1.sz := by
        show ¬ i < v.sz + src.length
        exact hsz
      rw [if_neg hszgoal, if_neg (by omega : ¬ i < pos),
        if_neg (by omega : ¬ i < pos + src.length), if_neg hsz]

/-! ### Shift-trace lemmas -/

theorem shift_to_end_getElem? [Inhabited α] (b : Buf α) (sz pos offset : Nat)
    (hlen : sz + offset ≤ b.length) (hpos : pos < sz) (i : Nat) :
    (shift_to_end b sz pos offset).1[i]? =
      if (sz ≤ i ∧ i < sz + offset) ∨ (pos + offset ≤ i ∧ i < sz)
      then some (some (readVal b ((i : Int) - (offset : Int)))) else b[i]? := by
  rw [shift_to_end_fst_of_ne _ _ _ _ (by omega)]
  rw [shiftAsn_getElem? _ _ _ _ (by rw [shiftCons_length]; omega) i]
  by_cases h2 : pos + offset ≤ i ∧ i < sz ∧ offset + pos ≤ sz
  · rw [if_pos h2, if_pos (Or.inr ⟨h2.1, h2.2.1⟩)]
    have hagree : (shiftCons b sz offset)[((i : Int) - (offset : Int)).toNat]? =
        b[((i : Int) - (offset : Int)).toNat]? := by
      rw [shiftCons_getElem? b sz offset (by omega), if_neg (by omega)]
    rw [readVal_congr _ hagree]
  · rw [if_neg h2, shiftCons_getElem? b sz offset (by omega) i]
    by_cases h3 : sz ≤ i ∧ i < sz + offset
    · rw [if_pos h3, if_pos (Or.inl h3)]
    · rw [if_neg h3, if_neg (by omega)]

theorem countP_range_unique : ∀ (n : Nat) (p : Nat → Bool) (k : Nat), k < n → p k = true →
    (∀ j, j < n → p j = true → j = k) → (List.range n).countP p = 1 := by
  intro n
  induction n with
  | zero => intro p k hk _ _; omega
  | succ n ih =>
      intro p k hk hp huniq
      rw [List.range_succ, List.countP_append]
      by_cases hkn : k = n
      · subst hkn
        have h0 : (List.range k).countP p = 0 := by
          rw [List.countP_eq_zero]
          intro a ha hpa
          rw [List.mem_range] at ha
          have := huniq a (by omega) hpa
          omega
        rw [h0]
        simp [List.countP_cons, hp]
      · have h1 : (List.range n).countP p = 1 :=
          ih p k (by omega) hp (fun j hj hpj => huniq j (by omega) hpj)
        rw [h1]
        have hpn : ¬ p n = true := fun hc => hkn (huniq n (by omega) hc).symm
        simp [List.countP_cons, hpn]

theorem shiftTrace_reads_once (sz pos offset : Nat) (hpos : pos < sz) (s : Nat)
    (hs1 : pos ≤ s) (hs2 : s < sz) :
    (shiftTrace sz pos offset).countP (SEv.readsFrom s) = 1 := by
  unfold shiftTrace
  rw [if_neg (by omega), List.countP_append, List.countP_map, List.countP_map]
  by_cases hcase : sz ≤ s + offset
  · have hc : (List.range offset).countP
        ((SEv.readsFrom s) ∘ fun k => SEv.scons (sz + k) ((sz : Int) - (offset : Int) + (k : Int))) = 1 := by
      apply countP_range_unique offset _ (s + offset - sz) (by omega)
      · simp only [Function.comp, SEv.readsFrom, decide_eq_true_eq]
        omega
      · intro jj hjj hpj
        simp only [Function.comp, SEv.readsFrom, decide_eq_true_eq] at hpj
        omega
    have ha : (List.range (sz - offset - pos)).countP
        ((SEv.readsFrom s) ∘ fun j => SEv.sasn (sz - offset - 1 - j + offset) (sz - offset - 1 - j)) = 0 := by
      rw [List.countP_eq_zero]
      intro a hamem hpa
      rw [List.mem_range] at hamem
      simp only [Function.comp, SEv.readsFrom, decide_eq_true_eq] at hpa
      omega
    rw [hc, ha]
  · have hc : (List.range offset).countP
        ((SEv.readsFrom s) ∘ fun k => SEv.scons (sz + k) ((sz : Int) - (offset : Int) + (k : Int))) = 0 := by
      rw [List.countP_eq_zero]
      intro a hamem hpa
      rw [List.mem_range] at hamem
      simp only [Function.comp, SEv.readsFrom, decide_eq_true_eq] at hpa
      omega
    have ha : (List.range (sz - offset - pos)).countP
        ((SEv.readsFrom s) ∘ fun j => SEv.sasn (sz - offset - 1 - j + offset) (sz - offset - 1 - j)) = 1 := by
      apply countP_range_unique _ _ (sz - offset - 1 - s) (by omega)
      · simp only [Function.comp, SEv.readsFrom, decide_eq_true_eq]
        omega
      · intro jj hjj hpj
        simp only [Function.comp, SEv.readsFrom, decide_eq_true_eq] at hpj
        omega
    rw [hc, ha]

theorem shiftTrace_filter_cons (sz pos offset : Nat) (h : pos ≠ sz) :
    (shiftTrace sz pos offset).filter SEv.isCons =
      (List.range offset).map fun k => SEv.scons (sz + k) ((sz : Int) - (offset : Int) + (k : Int)) := by
  unfold shiftTrace
  rw [if_neg h, List.filter_append, List.filter_map, List.filter_map]
  have h1 : (List.range offset).filter
      (SEv.isCons ∘ fun k => SEv.scons (sz + k) ((sz : Int) - (offset : Int) + (k : Int))) =
      List.range offset := by
    apply List.filter_eq_self.mpr
    intro a _
    rfl
  have h2 : (List.range (sz - offset - pos)).filter
      (SEv.isCons ∘ fun j => SEv.sasn (sz - offset - 1 - j + offset) (sz - offset - 1 - j)) =
      [] := by
    apply List.filter_eq_nil_iff.mpr
    intro a _
    simp [Function.comp, SEv.isCons]
  rw [h1, h2, List.map_nil, List.append_nil]

theorem shiftTrace_filter_asn (sz pos offset : Nat) (h : pos ≠ sz) :
    (shiftTrace sz pos offset).filter (fun e => ! e.isCons) =
      (List.range (sz - offset - pos)).map fun j =>
        SEv.sasn (sz - offset - 1 - j + offset) (sz - offset - 1 - j) := by
  unfold shiftTrace
  rw [if_neg h, List.filter_append, List.filter_map, List.filter_map]
  have h1 : (List.range offset).filter
      ((fun e => !SEv.isCons e) ∘ fun k => SEv.scons (sz + k) ((sz : Int) - (offset : Int) + (k : Int))) =
      [] := by
    apply List.filter_eq_nil_iff.mpr
    intro a _
    simp [Function.comp, SEv.isCons]
  have h2 : (List.range (sz - offset - pos)).filter
      ((fun e => !SEv.isCons e) ∘ fun j => SEv.sasn (sz - offset - 1 - j + offset) (sz - offset - 1 - j)) =
      List.range (sz - offset - pos) := by
    apply List.filter_eq_self.mpr
    intro a _
    rfl
  rw [h1, h2, List.map_nil, List.nil_append]

theorem shiftTrace_cons_increasing (sz pos offset : Nat) (h : pos ≠ sz) :
    List.Chain' (fun a b => SEv.dst a < SEv.dst b)
      ((shiftTrace sz pos offset).filter SEv.isCons) := by
  rw [shiftTrace_filter_cons sz pos offset h]
  apply List.Pairwise.chain'
  rw [List.pairwise_map]
  apply (List.pairwise_lt_range offset).imp
  intro a b hab
  simpa [SEv.dst] using hab

theorem shiftTrace_cons_nodup (sz pos offset : Nat) (h : pos ≠ sz) :
    List.Pairwise (fun a b => SEv.dst a ≠ SEv.dst b)
      ((shiftTrace sz pos offset).filter SEv.isCons) := by
  rw [shiftTrace_filter_cons sz pos offset h]
  rw [List.pairwise_map]
  apply (List.pairwise_lt_range offset).imp
  intro a b hab
  simp only [SEv.dst]
  omega

theorem shiftTrace_asn_decreasing (sz pos offset : Nat) (h : pos ≠ sz) :
    List.Chain' (fun a b => SEv.dst b < SEv.dst a)
      ((shiftTrace sz pos offset).filter (fun e => ! e.isCons)) := by
  rw [shiftTrace_filter_asn sz pos offset h]
  apply List.Pairwise.chain'
  rw [List.pairwise_map]
  apply List.Pairwise.imp_of_mem ?_ (List.pairwise_lt_range (sz - offset - pos))
  intro a b ha hb hab
  rw [List.mem_range] at ha hb
  simp only [SEv.dst]
  omega

/-! ### Growth-schedule lemmas -/

theorem pushSim_invariant : ∀ n, 1 ≤ n →
    (pushSim n).1 = n ∧
    (pushSim n).2.1 = 2 ^ ((pushSim n).2.2 - 1) ∧
    n ≤ (pushSim n).2.1 ∧
    (pushSim n).2.1 < 2 * n ∧
    1 ≤ (pushSim n).2.2 := by
  intro n
  induction n with
  | zero => omega
  | succ n ih =>
      intro _
      by_cases hn : 1 ≤ n
      · obtain ⟨h1, h2, h3, h4, h5⟩ := ih hn
        rcases hps : pushSim n with ⟨sz, cap, r⟩
        rw [hps] at h1 h2 h3 h4 h5
        simp only at h1 h2 h3 h4 h5
        have hstep : pushSim (n + 1) = pushStep (pushSim n) := rfl
        have hred : pushStep (sz, cap, r) =
            if sz + 1 ≤ cap then (sz + 1, cap, r)
            else (sz + 1, max (sz + 1) (sz * 2), r + 1) := rfl
        rw [hstep, hps, hred]
        by_cases hfit : sz + 1 ≤ cap
        · rw [if_pos hfit]
          refine ⟨?_, ?_, ?_, ?_, ?_⟩
          · show sz + 1 = n + 1
            omega
          · show cap = 2 ^ (r - 1)
            exact h2
          · show n + 1 ≤ cap
            omega
          · show cap < 2 * (n + 1)
            omega
          · show 1 ≤ r
            exact h5
        · rw [if_neg hfit]
          have hszcap : cap = sz := by omega
          have hr : r - 1 + 1 = r := by omega
          have h2r : 2 ^ r = 2 ^ (r - 1) * 2 := by
            conv =>
              lhs
              rw [← hr]
            rw [pow_succ]
          have hone : 1 ≤ 2 ^ (r - 1) := Nat.one_le_two_pow
          have hmax : max (sz + 1) (sz * 2) = 2 ^ r := by omega
          refine ⟨?_, ?_, ?_, ?_, ?_⟩
          · show sz + 1 = n + 1
            omega
          · show max (sz + 1) (sz * 2) = 2 ^ (r + 1 - 1)
            simp only [Nat.add_sub_cancel]
            exact hmax
          · show n + 1 ≤ max (sz + 1) (sz * 2)
            omega
          · show max (sz + 1) (sz * 2) < 2 * (n + 1)
            omega
          · show 1 ≤ r + 1
            omega
      · have hn0 : n = 0 := by omega
        subst hn0
        decide

theorem pushSim_reallocs_le (n : Nat) (hn : 1 ≤ n) :
    (pushSim n).2.2 ≤ Nat.log2 n + 2 := by
  obtain ⟨-, h2, -, h4, h5⟩ := pushSim_invariant n hn
  by_cases hr : (pushSim n).2.2 ≤ 2
  · omega
  · have hpow : 2 ^ ((pushSim n).2.2 - 1) < 2 * n := by rw [← h2]; exact h4
    have hsplit : (pushSim n).2.2 - 1 = ((pushSim n).2.2 - 2) + 1 := by omega
    rw [hsplit, pow_succ] at hpow
    have hlt : 2 ^ ((pushSim n).2.2 - 2) ≤ n := by omega
    have hle := (Nat.le_log2 (by omega : n ≠ 0)).mpr hlt
    omega

theorem push_back_sz_cap [Inhabited α] (v : Vec α) (x : α) (h : Wf v) :
    (push_back v x).sz = v.sz + 1 ∧
      (push_back v x).cap =
        if v.sz + 1 ≤ v.cap then v.cap else max (v.sz + 1) (v.sz * 2) := by
  have hc := insertRange_correct .NewFirst v v.sz [x] h le_rfl
  constructor
  · show (insertRange .NewFirst v v.sz [x]).1.sz = v.sz + 1
    rw [hc.2.1]
    rfl
  · by_cases hfit : v.sz + 1 ≤ v.cap
    · rw [if_pos hfit]
      exact hc.2.2.2 (by simpa using hfit)
    · rw [if_neg hfit]
      show (insertRange .NewFirst v v.sz [x]).1.cap = _
      rw [insertRange_of_grow _ _ _ _ (by simpa using hfit)]
      show (moveVals (moveVals (writeVals
          (List.replicate (max (v.sz + 1) (v.sz * 2)) none) v.sz [x])
          v.buf 0 0 v.sz) v.buf (v.sz + 1) v.sz (v.sz - v.sz)).length =
        max (v.sz + 1) (v.sz * 2)
      rw [moveVals_length, moveVals_length, writeVals_length, List.length_replicate]

/-! ### Alias-safety lemmas -/

theorem grow_to_of_fit (sz cap c : Nat) (h : c ≤ cap) : grow_to sz cap c = (false, cap) := by
  unfold grow_to
  rw [if_pos h]

theorem grow_to_of_grow (sz cap c : Nat) (h : ¬ c ≤ cap) :
    grow_to sz cap c = (true, max c (sz * 2)) := by
  unfold grow_to allocate_if_needed
  rw [if_neg h, if_neg (by omega)]

theorem writeVals_singleton (b : Buf α) (p : Nat) (x : α) :
    writeVals b p [x] = b.set p (some x) := rfl

theorem emplaceVal_eq_insertRVal [Inhabited α] (v : Vec α) (pos : Nat) (x : α) :
    emplaceVal v pos x = insertRVal v pos x := by
  unfold emplaceVal insertRVal insertRange insertRealloc
  simp only [List.length_cons, List.length_nil, Nat.zero_add]
  by_cases hfit : v.sz + 1 ≤ v.cap
  · rw [grow_to_of_fit _ _ _ hfit]
    by_cases hps : pos = v.sz
    · rw [if_pos hps, writeVals_singleton]
    · rw [if_neg hps, writeVals_singleton]
  · rw [grow_to_of_grow _ _ _ hfit]
    rfl

theorem insertRangeRef1_eq_snapshot [Inhabited α] (v : Vec α) (pos j : Nat)
    (hbr : ¬ (1 ≤ v.cap - v.sz ∧ pos ≠ v.sz)) :
    insertRangeRef1 v pos j = insertRVal v pos (readVal v.buf (j : Int)) := by
  unfold insertRangeRef1 insertRVal insertRange insertRealloc
  simp only [List.length_cons, List.length_nil, Nat.zero_add]
  by_cases hfit : v.sz + 1 ≤ v.cap
  · rw [grow_to_of_fit _ _ _ hfit]
    have hps : pos = v.sz := by
      by_contra hc
      exact hbr ⟨by omega, hc⟩
    rw [writeVals_singleton, shift_to_end_fst_of_eq v.buf v.sz pos 1 hps]
  · rw [grow_to_of_grow _ _ _ hfit]
    rfl

theorem insertCRefAliased_eq_snapshot [Inhabited α] (v : Vec α) (pos j : Nat) :
    insertCRefAliased v pos j = insertRVal v pos (readVal v.buf (j : Int)) := by
  unfold insertCRefAliased
  by_cases hbr : 1 ≤ v.cap - v.sz ∧ pos ≠ v.sz
  · rw [if_pos hbr]
  · rw [if_neg hbr]
    exact insertRangeRef1_eq_snapshot v pos j hbr

theorem emplaceRefAliased_eq_snapshot [Inhabited α] (v : Vec α) (pos j : Nat) :
    emplaceRefAliased v pos j = emplaceVal v pos (readVal v.buf (j : Int)) := by
  unfold emplaceRefAliased emplaceVal
  by_cases hfit : v.sz + 1 ≤ v.cap
  · rw [grow_to_of_fit _ _ _ hfit]
    by_cases hps : pos = v.sz
    · simp only [if_pos hps, shift_to_end_fst_of_eq v.buf v.sz pos 1 hps]
    · simp only [if_neg hps]
  · rw [grow_to_of_grow _ _ _ hfit]

/-! ### Claim theorems -/

/-- C1: `insert(pos, range)` returns an iterator to the first inserted
element, size grows by exactly the range length, the pre-existing elements
keep their relative order before `pos` and after the inserted run, and the
new elements appear at positions `[pos, pos + count)` in source order — for
every position `pos` in `[begin, end]`, every count (including counts larger
than the tail after `pos`), under both construction orders of the dispatcher,
on the reallocate path and on the in-place spare-capacity path, on which the
capacity is unchanged. -/
theorem C1_insert_dispatcher [Inhabited α] (order : InsertOrder) (v : Vec α) (pos : Nat)
    (src : List α) (h : Wf v) (hpos : pos ≤ v.sz) :
    toList (insertRange order v pos src).1 =
        (toList v).take pos ++ src ++ (toList v).drop pos ∧
      (insertRange order v pos src).1.sz = v.sz + src.length ∧
      (insertRange order v pos src).2 = pos ∧
      (v.sz + src.length ≤ v.cap → (insertRange order v pos src).1.cap = v.cap) :=
  insertRange_correct order v pos src h hpos

theorem C1_insert_dispatcher_witness :
    (Wf (⟨[some 0, some 1, some 2, none], 3⟩ : Vec Nat) ∧
      toList (insertRange .NewFirst (⟨[some 0, some 1, some 2, none], 3⟩ : Vec Nat) 1 [99]).1 =
        [0, 99, 1, 2] ∧
      (insertRange .NewFirst (⟨[some 0, some 1, some 2, none], 3⟩ : Vec Nat) 1 [99]).1.cap = 4) ∧
    toList (insertRange .Natural (⟨[some 10, some 11, some 12, none, none], 3⟩ : Vec Nat) 2
      [77, 88]).1 = [10, 11, 77, 88, 12] := by
  have h1 := C1_insert_dispatcher .NewFirst (⟨[some 0, some 1, some 2, none], 3⟩ : Vec Nat) 1
    [99] (by decide) (by decide)
  have h2 := C1_insert_dispatcher .Natural
    (⟨[some 10, some 11, some 12, none, none], 3⟩ : Vec Nat) 2 [77, 88] (by decide) (by decide)
  refine ⟨⟨by decide, ?_, ?_⟩, ?_⟩
  · rw [h1.1]
    decide
  · exact h1.2.2.2 (by decide)
  · rw [h2.1]
    decide

/-- C4: with source destruction requested, `move_to_if_noexcept` destroys
each source element immediately after its destination slot is constructed —
interleaved per element, in index order — when relocation of the element type
is guaranteed non-failing; when relocation might fail, no source element is
destroyed until after every construction in the run has succeeded (all
destructions deferred past the last construction). -/
theorem C4_relocation_destruction_order (nothrowMove : Bool) (count : Nat) :
    (nothrowMove = true →
      move_to_if_noexcept nothrowMove true count =
        (List.range count).flatMap fun i => [REv.cons i, REv.des i]) ∧
    (nothrowMove = false →
      move_to_if_noexcept nothrowMove true count =
        (List.range count).map REv.cons ++ (List.range count).map REv.des) := by
  constructor
  · rintro rfl
    unfold move_to_if_noexcept
    simp
  · rintro rfl
    unfold move_to_if_noexcept
    simp
    have hsingle : ∀ (l : List Nat), (l.flatMap fun i => [REv.cons i]) = l.map REv.cons := by
      intro l
      induction l with
      | nil => rfl
      | cons a as ih => simp [List.flatMap_cons, ih]
    exact hsingle (List.range count)

theorem C4_relocation_destruction_order_witness :
    move_to_if_noexcept true true 3 =
        [REv.cons 0, REv.des 0, REv.cons 1, REv.des 1, REv.cons 2, REv.des 2] ∧
      move_to_if_noexcept false true 3 =
        [REv.cons 0, REv.cons 1, REv.cons 2, REv.des 0, REv.des 1, REv.des 2] := by
  have h1 := (C4_relocation_destruction_order true 3).1 rfl
  have h2 := (C4_relocation_destruction_order false 3).2 rfl
  rw [h1, h2]
  constructor
  · decide
  · decide

/-- C5 counterexample: the original claim has the construction run of
`shift_to_end` process the trailing elements tail-to-head (destinations in
decreasing order); on a vector of size 2 with `pos = 0` and `offset = 2` the
code constructs destination 2 before destination 3 — head-to-tail — so the
claimed order is false at this input. -/
theorem C5_counterexample_construction_order :
    ((shiftTrace 2 0 2).filter SEv.isCons =
        [SEv.scons 2 (0 : Int), SEv.scons 3 (1 : Int)]) ∧
      ¬ List.Chain' (fun a b => SEv.dst b < SEv.dst a)
          ((shiftTrace 2 0 2).filter SEv.isCons) := by
  have hfc : (shiftTrace 2 0 2).filter SEv.isCons =
      [SEv.scons 2 (0 : Int), SEv.scons 3 (1 : Int)] := by decide
  refine ⟨hfc, ?_⟩
  rw [hfc]
  intro hch
  rw [List.chain'_cons] at hch
  have h32 : (3 : Nat) < 2 := hch.1
  omega

/-- C5 (amended): `shift_to_end(pos, offset)` on a vector whose capacity holds
`size + offset`: if `pos` is the logical end it only bumps the size, emitting
no events; otherwise it first constructs the trailing `offset` slots past the
old size by transferring from the slot `offset` places below — the element
that will land there — processing them head-to-tail (destinations strictly
increasing; the code's forward loop, not tail-to-head as originally claimed;
construction destinations are disjoint from all sources, so each source is
still read before being overwritten), then assigns (does not construct) the
remaining shifted elements moving backward from just below the constructed
run toward `pos`; no slot is constructed twice, and every live element in
`[pos, size)` is transferred (read) exactly once. -/
theorem C5_shift_to_end_amended [Inhabited α] (b : Buf α) (sz pos offset : Nat)
    (hpos : pos ≤ sz) (hlen : sz + offset ≤ b.length) :
    (pos = sz →
      shift_to_end b sz pos offset = (b, sz + offset) ∧ shiftTrace sz pos offset = []) ∧
    (pos ≠ sz →
      ((shiftTrace sz pos offset).filter SEv.isCons =
          ((List.range offset).map fun k =>
            SEv.scons (sz + k) ((sz : Int) - (offset : Int) + (k : Int)))) ∧
        List.Chain' (fun a b => SEv.dst a < SEv.dst b)
          ((shiftTrace sz pos offset).filter SEv.isCons) ∧
        List.Pairwise (fun a b => SEv.dst a ≠ SEv.dst b)
          ((shiftTrace sz pos offset).filter SEv.isCons) ∧
        ((shiftTrace sz pos offset).filter (fun e => ! e.isCons) =
          ((List.range (sz - offset - pos)).map fun j =>
            SEv.sasn (sz - offset - 1 - j + offset) (sz - offset - 1 - j))) ∧
        List.Chain' (fun a b => SEv.dst b < SEv.dst a)
          ((shiftTrace sz pos offset).filter (fun e => ! e.isCons)) ∧
        (∀ s, pos ≤ s → s < sz →
          (shiftTrace sz pos offset).countP (SEv.readsFrom s) = 1) ∧
        (∀ i, (shift_to_end b sz pos offset).1[i]? =
          if (sz ≤ i ∧ i < sz + offset) ∨ (pos + offset ≤ i ∧ i < sz)
          then some (some (readVal b ((i : Int) - (offset : Int)))) else b[i]?)) ∧
    (shift_to_end b sz pos offset).2 = sz + offset := by
  refine ⟨?_, ?_, shift_to_end_snd b sz pos offset⟩
  · intro hps
    constructor
    · unfold shift_to_end
      rw [if_pos hps]
    · unfold shiftTrace
      rw [if_pos hps]
  · intro hne
    refine ⟨shiftTrace_filter_cons sz pos offset hne,
      shiftTrace_cons_increasing sz pos offset hne,
      shiftTrace_cons_nodup sz pos offset hne,
      shiftTrace_filter_asn sz pos offset hne,
      shiftTrace_asn_decreasing sz pos offset hne,
      fun s hs1 hs2 => shiftTrace_reads_once sz pos offset (by omega) s hs1 hs2,
      fun i => shift_to_end_getElem? b sz pos offset hlen (by omega) i⟩

theorem C5_shift_to_end_amended_witness :
    shift_to_end ([some 1, some 2, none, none] : Buf Nat) 2 2 2 =
        ([some 1, some 2, none, none], 4) ∧
      (shiftTrace 5 1 2).countP (SEv.readsFrom 3) = 1 := by
  have h1 := C5_shift_to_end_amended ([some 1, some 2, none, none] : Buf Nat) 2 2 2
    (by decide) (by decide)
  have h2 := C5_shift_to_end_amended
    ([some 1, some 2, some 3, some 4, some 5, none, none] : Buf Nat) 5 1 2 (by decide) (by decide)
  exact ⟨(h1.1 rfl).1, (h2.2.1 (by decide)).2.2.2.2.2.1 3 (by decide) (by decide)⟩

/-- C6: `grow_to(n)` returns the current buffer unchanged when
`n ≤ capacity` and otherwise allocates exactly `max(n, 2 * size)` slots;
`push_back` follows this schedule, every reallocation yields a capacity at
least double the size held just before it, and `n` consecutive `push_back`
calls from empty cause at most `log2 n + 2` reallocations — `O(log n)`. -/
theorem C6_growth_schedule [Inhabited α] (v : Vec α) (x : α) (n : Nat) (h : Wf v)
    (hn : 1 ≤ n) :
    (∀ sz cap c, c ≤ cap → grow_to sz cap c = (false, cap)) ∧
    (∀ sz cap c, cap < c → grow_to sz cap c = (true, max c (sz * 2))) ∧
    ((push_back v x).sz = v.sz + 1 ∧
      (push_back v x).cap =
        if v.sz + 1 ≤ v.cap then v.cap else max (v.sz + 1) (v.sz * 2)) ∧
    (∀ sz cap r, cap < sz + 1 → 2 * sz ≤ (pushStep (sz, cap, r)).2.1) ∧
    (pushSim n).2.2 ≤ Nat.log2 n + 2 := by
  refine ⟨fun sz cap c hc => grow_to_of_fit sz cap c hc,
    fun sz cap c hc => grow_to_of_grow sz cap c (by omega),
    push_back_sz_cap v x h, ?_, pushSim_reallocs_le n hn⟩
  intro sz cap r hlt
  show 2 * sz ≤
    (if sz + 1 ≤ cap then (sz + 1, cap, r) else (sz + 1, max (sz + 1) (sz * 2), r + 1)).2.1
  rw [if_neg (by omega)]
  show 2 * sz ≤ max (sz + 1) (sz * 2)
  omega

theorem C6_growth_schedule_witness :
    (push_back (⟨[some 7], 1⟩ : Vec Nat) 8).cap = 2 ∧
      (pushSim 5).2.2 ≤ Nat.log2 5 + 2 := by
  have h := C6_growth_schedule (⟨[some 7], 1⟩ : Vec Nat) 8 5 (by decide) (by decide)
  refine ⟨?_, h.2.2.2.2⟩
  have hc := h.2.2.1.2
  rw [hc]
  decide

/-- C7: when the insertion source aliases an element of the vector itself
(slot `j`, which the insertion may shift or relocate), `insert(pos, value)`
and `emplace(pos, args)` produce exactly the result of first taking a private
copy of the source value and then inserting that copy: the snapshot of
element `j` lands at `pos` and the pre-existing elements keep their order. -/
theorem C7_alias_safety [Inhabited α] (v : Vec α) (pos j : Nat) (h : Wf v)
    (hpos : pos ≤ v.sz) (hj : j < v.sz) :
    insertCRefAliased v pos j = insertRVal v pos (readVal v.buf (j : Int)) ∧
    emplaceRefAliased v pos j = emplaceVal v pos (readVal v.buf (j : Int)) ∧
    (toList v)[j]? = some (readVal v.buf (j : Int)) ∧
    toList (insertCRefAliased v pos j).1 =
      (toList v).take pos ++ [readVal v.buf (j : Int)] ++ (toList v).drop pos ∧
    toList (emplaceRefAliased v pos j).1 =
      (toList v).take pos ++ [readVal v.buf (j : Int)] ++ (toList v).drop pos := by
  have hsnap := insertCRefAliased_eq_snapshot v pos j
  have hesnap := emplaceRefAliased_eq_snapshot v pos j
  have hcor := insertRange_correct .NewFirst v pos [readVal v.buf (j : Int)] h hpos
  refine ⟨hsnap, hesnap, toList_getElem?_live h hj, ?_, ?_⟩
  · rw [hsnap]
    exact hcor.1
  · rw [hesnap, emplaceVal_eq_insertRVal]
    exact hcor.1

theorem C7_alias_safety_witness :
    toList (insertCRefAliased
        (⟨[some 1, some 2, some 3, some 4, some 5, none], 5⟩ : Vec Nat) 1 3).1 =
      [1, 4, 2, 3, 4, 5] ∧
    toList (emplaceRefAliased
        (⟨[some 1, some 2, some 3, some 4, some 5, none], 5⟩ : Vec Nat) 1 3).1 =
      [1, 4, 2, 3, 4, 5] := by
  have h := C7_alias_safety (⟨[some 1, some 2, some 3, some 4, some 5, none], 5⟩ : Vec Nat)
    1 3 (by decide) (by decide) (by decide)
  constructor
  · rw [h.2.2.2.1]
    decide
  · rw [h.2.2.2.2]
    decide

/-- C8: `at(pos)` fails with an out-of-range error exactly when
`pos ≥ size`; the thrown error carries the message citing both the requested
index and the current size; when `pos < size` it returns the element at index
`pos` of the contents.  `at` performs no mutation, so the container is the
same before and after the call in every case. -/
theorem C8_at_bounds_check [Inhabited α] (v : Vec α) (pos : Nat) (h : Wf v) :
    ((∃ e, at' v pos = .error e) ↔ v.sz ≤ pos) ∧
    (v.sz ≤ pos → at' v pos = .error ⟨rangeCheckMsg pos v.sz⟩) ∧
    (pos < v.sz →
      at' v pos = .ok (readVal v.buf (pos : Int)) ∧
      (toList v)[pos]? = some (readVal v.buf (pos : Int))) := by
  unfold at'
  by_cases hc : v.sz ≤ pos
  · rw [if_pos hc]
    exact ⟨⟨fun _ => hc, fun _ => ⟨_, rfl⟩⟩, fun _ => rfl, fun hlt => absurd hc (by omega)⟩
  · rw [if_neg hc]
    refine ⟨⟨?_, fun hk => absurd hk hc⟩, fun hk => absurd hk hc,
      fun hlt => ⟨rfl, toList_getElem?_live h (by omega)⟩⟩
    rintro ⟨e, he⟩
    simp at he

theorem C8_at_bounds_check_witness :
    at' (⟨[some 1, some 2, some 3, some 4, some 5], 5⟩ : Vec Nat) 10 =
        .error ⟨"vector::_M_range_check: __n (which is 10) >= this->size() (which is 5)"⟩ ∧
      at' (⟨[some 1, some 2, some 3, some 4, some 5], 5⟩ : Vec Nat) 2 = .ok 3 := by
  have h1 := C8_at_bounds_check (⟨[some 1, some 2, some 3, some 4, some 5], 5⟩ : Vec Nat) 10
    (by decide)
  have h2 := C8_at_bounds_check (⟨[some 1, some 2, some 3, some 4, some 5], 5⟩ : Vec Nat) 2
    (by decide)
  constructor
  · rw [h1.2.1 (by decide)]
    rfl
  · rw [(h2.2.2 (by decide)).1]
    rfl

/-- C9: `data()` is `empty() ? nullptr : addressof(front())`: it returns the
null pointer whenever `size == 0`, even when `capacity() > 0` — as after
`reserve` on an empty container, which does leave a buffer allocated — and on
a non-empty container it returns the address of the element at index 0. -/
theorem C9_data_null_when_empty (v : Vec α) (base n : Nat) (hn : 0 < n) :
    (v.sz = 0 → dataPtr v base = none) ∧
    (v.sz ≠ 0 → dataPtr v base = some (addrOfElem base 0)) ∧
    ((reserveVal (⟨[], 0⟩ : Vec Nat) n).cap = n ∧
      dataPtr (reserveVal (⟨[], 0⟩ : Vec Nat) n) base = none) := by
  have hres : reserveVal (⟨[], 0⟩ : Vec Nat) n =
      ⟨moveVals (List.replicate n none) [] 0 0 0, 0⟩ := by
    have hcap0 : (⟨[], 0⟩ : Vec Nat).cap = 0 := rfl
    unfold reserveVal allocate_if_needed
    rw [if_neg (by omega)]
  refine ⟨?_, ?_, ?_, ?_⟩
  · intro h0
    unfold dataPtr
    rw [if_pos h0]
  · intro h0
    unfold dataPtr addrOfElem
    rw [if_neg h0, Nat.add_zero]
  · rw [hres]
    show (List.replicate n (none : Option Nat)).length = n
    exact List.length_replicate _ _
  · rw [hres]
    rfl

theorem C9_data_null_when_empty_witness :
    dataPtr (⟨[none, none], 0⟩ : Vec Nat) 100 = none ∧
      dataPtr (⟨[some 5], 1⟩ : Vec Nat) 100 = some 100 ∧
      (reserveVal (⟨[], 0⟩ : Vec Nat) 3).cap = 3 := by
  have h1 := C9_data_null_when_empty (⟨[none, none], 0⟩ : Vec Nat) 100 3 (by decide)
  have h2 := C9_data_null_when_empty (⟨[some 5], 1⟩ : Vec Nat) 100 3 (by decide)
  exact ⟨h1.1 rfl, h2.2.1 (by decide), h1.2.2.1⟩

/-- C10: `pop_back` calls `resize(size() - 1)` where the subtraction is
unsigned `size_type` arithmetic: on an empty container it wraps modulo
`2 ^ 64` to the maximum `size_type` value and `resize` then attempts an
allocation of that many slots; only under the precondition `size ≥ 1` does
`pop_back` shrink the size by exactly one and destroy exactly the last
element, leaving the remaining contents intact. -/
theorem C10_pop_back_underflow [Inhabited α] (v : Vec α) (hsz : v.sz < W64)
    (hcap : v.cap < W64 - 1) :
    (v.sz = 0 → (pop_back v).2.1 = some (W64 - 1)) ∧
    (1 ≤ v.sz →
      (pop_back v).1.sz = v.sz - 1 ∧
      (pop_back v).2.2 = [v.sz - 1] ∧
      (pop_back v).2.1 = none ∧
      toList (pop_back v).1 = (toList v).take (v.sz - 1)) := by
  have hW : W64 = 18446744073709551616 := by
    unfold W64
    norm_num
  have hbuflen : v.buf.length = v.cap := rfl
  constructor
  · intro h0
    have hm : (v.sz + (W64 - 1)) % W64 = W64 - 1 := by
      rw [h0]
      rw [hW]
    unfold pop_back resize
    rw [hm]
    rw [if_neg (by omega), if_pos (by omega)]
    unfold allocate_if_needed
    rw [if_neg (by omega)]
  · intro h1
    have hm : (v.sz + (W64 - 1)) % W64 = v.sz - 1 := by
      rw [hW] at hsz ⊢
      omega
    unfold pop_back resize
    rw [hm]
    rw [if_pos (by omega)]
    have hcnt : v.sz - (v.sz - 1) = 1 := by omega
    rw [hcnt]
    refine ⟨rfl, List.range'_one, rfl, ?_⟩
    show toList ⟨killRange v.buf (v.sz - 1) 1, v.sz - 1⟩ = (toList v).take (v.sz - 1)
    have hkill : killRange v.buf (v.sz - 1) 1 = v.buf.set (v.sz - 1) none := rfl
    apply List.ext_getElem?
    intro i
    rw [toList_getElem?, List.getElem?_take]
    by_cases hi : i < v.sz - 1
    · rw [if_pos hi, if_pos hi, toList_getElem?, if_pos (by omega)]
      show (((v.buf.set (v.sz - 1) none))[i]?).map _ = _
      rw [List.getElem?_set_ne (by omega)]
    · rw [if_neg hi, if_neg hi]

theorem C10_pop_back_underflow_witness :
    (pop_back (⟨[], 0⟩ : Vec Nat)).2.1 = some (W64 - 1) ∧
      (pop_back (⟨[some 4, some 9], 2⟩ : Vec Nat)).1.sz = 1 ∧
      (pop_back (⟨[some 4, some 9], 2⟩ : Vec Nat)).2.2 = [1] ∧
      toList (pop_back (⟨[some 4, some 9], 2⟩ : Vec Nat)).1 = [4] := by
  have h1 := C10_pop_back_underflow (⟨[], 0⟩ : Vec Nat) (by decide) (by decide)
  have h2 := C10_pop_back_underflow (⟨[some 4, some 9], 2⟩ : Vec Nat) (by decide) (by decide)
  have h2c := h2.2 (by decide)
  refine ⟨h1.1 rfl, h2c.1, h2c.2.1, ?_⟩
  rw [h2c.2.2.2]
  decide

/-- C2 (divergence exhibit): the length check of `reserve` runs before any
mutation, so a LengthError is raised with the container exactly as before the
call; but a failing allocation happens inside `allocate_if_needed`, which the
source declares `noexcept`, so the AllocationFailure escapes a noexcept
function and the program terminates — a terminated outcome is never a raised
error, so the failure is not signaled to the caller as the claim requires. -/
theorem C2_allocation_failure_not_signaled :
    reserveE (⟨[some 1], 1⟩ : Vec Nat) 2 1000 false = .terminated ∧
    (∀ (wh : String) (s : Vec Nat), Outcome.raised wh s ≠ Outcome.terminated) ∧
    reserveE (⟨[some 1], 1⟩ : Vec Nat) 2000 1000 true =
      .raised "vector::reserve" ⟨[some 1], 1⟩ := by
  refine ⟨rfl, ?_, rfl⟩
  intro wh s hcon
  exact Outcome.noConfusion hcon

/-- C3 (divergence exhibit): from the empty container, `reserve(5)` and three
`push_back` calls reach `[10, 11, 12]` with capacity 5 — a well-formed state;
the in-place insert of two elements at position 2 then constructs slot 3
twice with no intervening destruction: the shift loop constructs slots 3 and
4, and the fill loop constructs slot 3 again because it lies beyond the
pre-shift end.  Replaying the branch's lifetime events over the slot-liveness
map flags the double construction, so construction and destruction events do
not pair one-to-one on this reachable state, even though the resulting
element values are correct. -/
theorem C3_double_construction_reachable :
    push_back (push_back (push_back (reserveVal (⟨[], 0⟩ : Vec Nat) 5) 10) 11) 12 =
        ⟨[some 10, some 11, some 12, none, none], 3⟩ ∧
      Wf (⟨[some 10, some 11, some 12, none, none], 3⟩ : Vec Nat) ∧
      toList (insertRange .Natural (⟨[some 10, some 11, some 12, none, none], 3⟩ : Vec Nat) 2
          [77, 88]).1 = [10, 11, 77, 88, 12] ∧
      insertInPlaceTraceL 3 2 2 = [.consL 3, .consL 4, .asnL 2, .consL 3] ∧
      (replay [true, true, true, false, false] (insertInPlaceTraceL 3 2 2)).2 = true := by
  refine ⟨by decide, by decide, by decide, by decide, by decide⟩
